import Mathlib

/-!
Verification of the dynamic-universe membership logic of
`qstrader/asset/universe/dynamic.py`.

Timestamps (`pd.Timestamp`) are modelled as integers (`Int`): pandas
timestamps are totally ordered instants (nanoseconds since epoch), and the
code only ever compares them with `<`, `>`, `>=`.  Concrete calendar dates
used in examples are encoded as `YYYYMMDD` integers, which preserves the
date order.  Asset identities are modelled as `String`.  The Python `dict`
of `DynamicUniverse.asset_dates` is modelled as an association list in
insertion order (Python dicts iterate in insertion order and have unique
keys).
-/

/-- Embeds class `DynamicActiveDate`: one activity period with a required
`start` and an optional `end` (the field is named `end_` because `end` is a
Lean keyword). -/
structure DynamicActiveDate where
  start : Int
  end_ : Option Int
deriving Repr, DecidableEq

/-- Embeds `DynamicActiveDate.active_on_date`:
`if dt < self.start: return False`;
`if self.end is not None: return dt > self.end`;
`return True`. -/
def DynamicActiveDate.active_on_date (d : DynamicActiveDate) (dt : Int) : Bool :=
  if dt < d.start then
    false
  else
    match d.end_ with
    | some e => dt > e
    | none => true

/-- Embeds class `DynamicActiveDates`: an ordered list of
`DynamicActiveDate`. -/
structure DynamicActiveDates where
  dynamic_active_dates : List DynamicActiveDate
deriving Repr, DecidableEq

/-- Embeds the `for` loop body of `DynamicActiveDates.active_on_date`:
walk the list, return `True` at the first interval active on `dt`,
`False` if the loop ends. -/
def anyActiveLoop (dt : Int) : List DynamicActiveDate → Bool
  | [] => false
  | d :: rest =>
    if d.active_on_date dt then true else anyActiveLoop dt rest

/-- Embeds `DynamicActiveDates.active_on_date`. -/
def DynamicActiveDates.active_on_date (s : DynamicActiveDates) (dt : Int) : Bool :=
  anyActiveLoop dt s.dynamic_active_dates

/-- Embeds `AssetDateType = Optional[Union[pd.Timestamp, DynamicActiveDates]]`
as a closed sum: `None`, a bare timestamp, or a `DynamicActiveDates`. -/
inductive AssetDateType where
  | none : AssetDateType
  | timestamp : Int → AssetDateType
  | dates : DynamicActiveDates → AssetDateType
deriving Repr, DecidableEq

/-- Embeds class `DynamicUniverse`: the `asset_dates` dict, as an
association list from asset identity to `AssetDateType`, in the dict's
insertion (= iteration) order. -/
structure DynamicUniverse where
  asset_dates : List (String × AssetDateType)
deriving Repr, DecidableEq

/-- Embeds `DynamicUniverse._assess_asset_date`:
`None` is never active; a bare timestamp `d` is active iff `dt >= d`;
otherwise delegate to `DynamicActiveDates.active_on_date`. -/
def DynamicUniverse._assess_asset_date (dt : Int) : AssetDateType → Bool
  | AssetDateType.none => false
  | AssetDateType.timestamp d => dt ≥ d
  | AssetDateType.dates s => s.active_on_date dt

/-- Embeds `DynamicUniverse.get_assets`: the list comprehension
`[asset for asset, asset_date in self.asset_dates.items() if self._assess_asset_date(dt, asset_date)]`. -/
def DynamicUniverse.get_assets (u : DynamicUniverse) (dt : Int) : List String :=
  u.asset_dates.filterMap
    (fun p => if DynamicUniverse._assess_asset_date dt p.2 then some p.1 else none)

/-- Explicit-state view of the method call `u.get_assets(dt)`: the method
only reads `self`, so the state passed out is the state passed in. -/
def DynamicUniverse.get_assets_call (u : DynamicUniverse) (dt : Int) :
    List String × DynamicUniverse :=
  (u.get_assets dt, u)

/-- Concrete end-to-end Membership from the specification scenario:
AAA has a bare threshold date 2020-01-01, BBB has no activity data,
CCC has the interval set [(2020-06-01, 2020-06-30), (2021-01-01, open)].
Dates are encoded as YYYYMMDD integers, which preserves their order. -/
def specScenarioUniverse : DynamicUniverse :=
  { asset_dates :=
      [ ("AAA", AssetDateType.timestamp 20200101),
        ("BBB", AssetDateType.none),
        ("CCC", AssetDateType.dates
          ⟨[⟨20200601, some 20200630⟩, ⟨20210101, none⟩]⟩) ] }

/-- Helper: `active_on_date` holds iff `dt` is at or after the start and
strictly after the end whenever an end is present. -/
theorem active_on_date_iff (s : Int) (e : Option Int) (dt : Int) :
    DynamicActiveDate.active_on_date ⟨s, e⟩ dt = true ↔
      s ≤ dt ∧ ∀ e0 ∈ e, e0 < dt := by
  cases e with
  | none => simp [DynamicActiveDate.active_on_date]
  | some e0 => simp [DynamicActiveDate.active_on_date]

/-- Helper: the first-match loop computes the same Boolean as `List.any`. -/
theorem anyActiveLoop_eq_any (dt : Int) (l : List DynamicActiveDate) :
    anyActiveLoop dt l = l.any (fun d => d.active_on_date dt) := by
  induction l with
  | nil => rfl
  | cons d rest ih =>
    cases h : d.active_on_date dt <;> simp [anyActiveLoop, h, ih]

/-- Helper: membership in the result of `get_assets` is witnessed by a
stored binding whose rule is true at the query time. -/
theorem mem_get_assets {u : DynamicUniverse} {dt : Int} {X : String} :
    X ∈ u.get_assets dt ↔
      ∃ ad, (X, ad) ∈ u.asset_dates ∧
        DynamicUniverse._assess_asset_date dt ad = true := by
  unfold DynamicUniverse.get_assets
  simp only [List.mem_filterMap]
  constructor
  · rintro ⟨⟨a, ad⟩, hmem, hf⟩
    by_cases h : DynamicUniverse._assess_asset_date dt ad = true
    · simp only [h, if_true, Option.some.injEq] at hf
      exact ⟨ad, hf ▸ hmem, h⟩
    · simp [h] at hf
  · rintro ⟨ad, hmem, h⟩
    exact ⟨(X, ad), hmem, by simp [h]⟩

/-- Helper: in an association list with no duplicate keys, a key determines
its value. -/
theorem key_nodup_unique_value {l : List (String × AssetDateType)}
    (hnd : (l.map Prod.fst).Nodup) {k : String} {v w : AssetDateType}
    (h1 : (k, v) ∈ l) (h2 : (k, w) ∈ l) : v = w := by
  induction l with
  | nil => cases h1
  | cons p rest ih =>
    simp only [List.map_cons, List.nodup_cons] at hnd
    rcases List.mem_cons.mp h1 with h1 | h1 <;>
      rcases List.mem_cons.mp h2 with h2 | h2
    · rw [← h1] at h2
      exact (Prod.ext_iff.mp h2).2.symm
    · exfalso
      apply hnd.1
      rw [← h1]
      exact List.mem_map.mpr ⟨(k, w), h2, rfl⟩
    · exfalso
      apply hnd.1
      rw [← h2]
      exact List.mem_map.mpr ⟨(k, v), h1, rfl⟩
    · exact ih hnd.2 h1 h2

/-- Helper: a single interval's predicate is non-decreasing in the query
time. -/
theorem active_on_date_mono (d : DynamicActiveDate) {t1 t2 : Int} (h : t1 ≤ t2)
    (ha : d.active_on_date t1 = true) : d.active_on_date t2 = true := by
  obtain ⟨s, e⟩ := d
  rw [active_on_date_iff] at ha ⊢
  exact ⟨le_trans ha.1 h, fun e0 h0 => lt_of_lt_of_le (ha.2 e0 h0) h⟩

/-- Helper: the first-match loop is non-decreasing in the query time. -/
theorem anyActiveLoop_mono {t1 t2 : Int} (h : t1 ≤ t2)
    (l : List DynamicActiveDate) (ha : anyActiveLoop t1 l = true) :
    anyActiveLoop t2 l = true := by
  rw [anyActiveLoop_eq_any, List.any_eq_true] at ha ⊢
  rcases ha with ⟨d, hd, hact⟩
  exact ⟨d, hd, active_on_date_mono d h hact⟩

/-- Helper: each per-member rule kind is non-decreasing in the query
time. -/
theorem assess_asset_date_mono {t1 t2 : Int} (h : t1 ≤ t2)
    (ad : AssetDateType)
    (ha : DynamicUniverse._assess_asset_date t1 ad = true) :
    DynamicUniverse._assess_asset_date t2 ad = true := by
  cases ad with
  | none => simpa using ha
  | timestamp d =>
    simp only [DynamicUniverse._assess_asset_date, decide_eq_true_eq] at ha ⊢
    omega
  | dates s =>
    simp only [DynamicUniverse._assess_asset_date,
      DynamicActiveDates.active_on_date] at ha ⊢
    exact anyActiveLoop_mono h s.dynamic_active_dates ha

/-- Specification-side reading of the `get_active_members` contract: take
the map's key sequence in iteration order and keep exactly the keys whose
stored rule evaluates true at the query time (the rule of a key is found
by lookup in the map). -/
def activeMembersSpec (u : DynamicUniverse) (dt : Int) : List String :=
  (u.asset_dates.map Prod.fst).filter
    (fun a =>
      match u.asset_dates.lookup a with
      | some ad => DynamicUniverse._assess_asset_date dt ad
      | Option.none => false)

/-- C1: for an activity interval with start `s` and optional end `e`,
`active_on_date t` is false when `t < s`; otherwise, when an end `e0` is
present the result is the comparison `t > e0`; otherwise (no end) the
result is true for any `t ≥ s`. -/
theorem active_on_date_cases (s : Int) (e : Option Int) (dt : Int) :
    (dt < s → DynamicActiveDate.active_on_date ⟨s, e⟩ dt = false) ∧
    (s ≤ dt → ∀ e0, e = some e0 →
      DynamicActiveDate.active_on_date ⟨s, e⟩ dt = decide (dt > e0)) ∧
    (s ≤ dt → e = Option.none →
      DynamicActiveDate.active_on_date ⟨s, e⟩ dt = true) := by
  unfold DynamicActiveDate.active_on_date
  refine ⟨fun h => by simp [h], fun h e0 he => ?_, fun h he => ?_⟩
  · subst he
    simp [not_lt.mpr h]
  · subst he
    simp [not_lt.mpr h]

/-- Witness for C1 at concrete inputs: before the start the interval is
inactive; at or after the start with an end present the result is the
strict comparison with the end; with no end it is active. -/
theorem active_on_date_cases_witness :
    DynamicActiveDate.active_on_date ⟨0, some 5⟩ (-1) = false ∧
    DynamicActiveDate.active_on_date ⟨0, some 5⟩ 3 = decide ((3 : Int) > 5) ∧
    DynamicActiveDate.active_on_date ⟨0, Option.none⟩ 3 = true :=
  ⟨(active_on_date_cases 0 (some 5) (-1)).1 (by decide),
   (active_on_date_cases 0 (some 5) 3).2.1 (by decide) 5 rfl,
   (active_on_date_cases 0 Option.none 3).2.2 (by decide) rfl⟩

/-- C2: for an interval with both endpoints present and `s ≤ e`, the
predicate is false exactly at `e`, true at `e + ε` for every `ε > 0`, and
false at every `t` with `s ≤ t ≤ e` (the inherited strict-after-end
rule). -/
theorem bounded_interval_boundary (s e : Int) (he : s ≤ e) :
    DynamicActiveDate.active_on_date ⟨s, some e⟩ e = false ∧
    (∀ ε : Int, 0 < ε →
      DynamicActiveDate.active_on_date ⟨s, some e⟩ (e + ε) = true) ∧
    (∀ t : Int, s ≤ t → t ≤ e →
      DynamicActiveDate.active_on_date ⟨s, some e⟩ t = false) := by
  refine ⟨?_, fun ε hε => ?_, fun t h1 h2 => ?_⟩
  · simp [DynamicActiveDate.active_on_date, not_lt.mpr he]
  · rw [active_on_date_iff]
    constructor
    · omega
    · intro e0 h0
      simp only [Option.mem_def, Option.some.injEq] at h0
      omega
  · simp only [DynamicActiveDate.active_on_date]
    rw [if_neg (not_lt.mpr h1)]
    simp only [decide_eq_false_iff_not, not_lt]
    exact h2

/-- Witness for C2 at the concrete interval [0, 5]: inactive at 5,
active at 6, inactive at the interior point 3. -/
theorem bounded_interval_boundary_witness :
    DynamicActiveDate.active_on_date ⟨0, some 5⟩ 5 = false ∧
    DynamicActiveDate.active_on_date ⟨0, some 5⟩ (5 + 1) = true ∧
    DynamicActiveDate.active_on_date ⟨0, some 5⟩ 3 = false :=
  ⟨(bounded_interval_boundary 0 5 (by decide)).1,
   (bounded_interval_boundary 0 5 (by decide)).2.1 1 (by decide),
   (bounded_interval_boundary 0 5 (by decide)).2.2 3 (by decide) (by decide)⟩

/-- Counterexample for C3: in the specification scenario,
`get_active_members(2020-07-01)` is not `["AAA"]` — the strict
after-the-end rule makes the interval (2020-06-01, 2020-06-30) active at
2020-07-01, so "CCC" is included. -/
theorem scenario_20200701_claim_false :
    specScenarioUniverse.get_assets 20200701 ≠ ["AAA"] := by decide

/-- C3 (amended): in the specification scenario,
`get_active_members(2020-07-01)` returns `["AAA", "CCC"]` — "CCC" is
included because 2020-07-01 lies strictly after the end 2020-06-30 of its
first interval, which under the reproduced `t > end` rule makes that
interval active. -/
theorem scenario_20200701_amended :
    specScenarioUniverse.get_assets 20200701 = ["AAA", "CCC"] := by decide

/-- C4: an interval set is active at `t` iff at least one contained
interval is active at `t`, and on a two-element set the result is exactly
the Boolean OR of the two intervals' predicates. -/
theorem active_dates_or_spec (S : DynamicActiveDates) (dt : Int) :
    (S.active_on_date dt = true ↔
      ∃ d ∈ S.dynamic_active_dates, d.active_on_date dt = true) ∧
    (∀ A B : DynamicActiveDate,
      DynamicActiveDates.active_on_date ⟨[A, B]⟩ dt =
        (A.active_on_date dt || B.active_on_date dt)) := by
  constructor
  · rw [DynamicActiveDates.active_on_date, anyActiveLoop_eq_any,
      List.any_eq_true]
  · intro A B
    rw [DynamicActiveDates.active_on_date, anyActiveLoop_eq_any]
    simp

/-- C5: the empty interval set is active at no time. -/
theorem empty_active_dates_false (dt : Int) :
    DynamicActiveDates.active_on_date ⟨[]⟩ dt = false := rfl

/-- C6: when member X is stored with a bare threshold date D (and keys are
unique, as in a dict), X appears in `get_active_members(t)` iff `t ≥ D`. -/
theorem threshold_member_iff (u : DynamicUniverse) (X : String) (D dt : Int)
    (hnd : (u.asset_dates.map Prod.fst).Nodup)
    (hX : (X, AssetDateType.timestamp D) ∈ u.asset_dates) :
    X ∈ u.get_assets dt ↔ D ≤ dt := by
  rw [mem_get_assets]
  constructor
  · rintro ⟨ad, hmem, hass⟩
    have had : ad = AssetDateType.timestamp D :=
      key_nodup_unique_value hnd hmem hX
    subst had
    simpa [DynamicUniverse._assess_asset_date] using hass
  · intro h
    refine ⟨AssetDateType.timestamp D, hX, ?_⟩
    simpa [DynamicUniverse._assess_asset_date] using h

/-- Witness for C6: in a one-member universe mapping "AAA" to threshold 5,
"AAA" is active at time 7. -/
theorem threshold_member_iff_witness :
    "AAA" ∈ (DynamicUniverse.mk
      [("AAA", AssetDateType.timestamp 5)]).get_assets 7 :=
  (threshold_member_iff (DynamicUniverse.mk
      [("AAA", AssetDateType.timestamp 5)]) "AAA" 5 7
    (by decide) (by decide)).mpr (by decide)

/-- C7: a member stored with no activity data (None) never appears in any
`get_active_members` result, for any query time. -/
theorem absent_never_member (u : DynamicUniverse) (X : String) (dt : Int)
    (hnd : (u.asset_dates.map Prod.fst).Nodup)
    (hX : (X, AssetDateType.none) ∈ u.asset_dates) :
    X ∉ u.get_assets dt := by
  intro hmem
  rcases mem_get_assets.mp hmem with ⟨ad, hmem2, hass⟩
  have had : ad = AssetDateType.none :=
    key_nodup_unique_value hnd hmem2 hX
  subst had
  simp [DynamicUniverse._assess_asset_date] at hass

/-- Witness for C7: in a one-member universe mapping "BBB" to None, "BBB"
is not in the result at time 3. -/
theorem absent_never_member_witness :
    "BBB" ∉ (DynamicUniverse.mk [("BBB", AssetDateType.none)]).get_assets 3 :=
  absent_never_member (DynamicUniverse.mk [("BBB", AssetDateType.none)])
    "BBB" 3 (by decide) (by decide)

/-- Helper: on an association list with unique keys, the comprehension over
pairs equals the filter of the key sequence by the looked-up rule. -/
theorem get_assets_eq_keys_filter (dt : Int) :
    ∀ l : List (String × AssetDateType), (l.map Prod.fst).Nodup →
      l.filterMap (fun p =>
          if DynamicUniverse._assess_asset_date dt p.2 then some p.1 else none)
        = (l.map Prod.fst).filter (fun a =>
            match l.lookup a with
            | some ad => DynamicUniverse._assess_asset_date dt ad
            | Option.none => false) := by
  intro l
  induction l with
  | nil => intro _; rfl
  | cons p rest ih =>
    intro hnd
    obtain ⟨a, ad⟩ := p
    simp only [List.map_cons, List.nodup_cons] at hnd
    have hna : a ∉ rest.map Prod.fst := hnd.1
    have hhead : ((a, ad) :: rest).lookup a = some ad := by
      simp [List.lookup]
    have htail : ∀ b ∈ rest.map Prod.fst,
        ((a, ad) :: rest).lookup b = rest.lookup b := by
      intro b hb
      have hne : (b == a) = false :=
        beq_eq_false_iff_ne.mpr (fun h => hna (h ▸ hb))
      simp [List.lookup, hne]
    have hfilter : (rest.map Prod.fst).filter (fun b =>
          match ((a, ad) :: rest).lookup b with
          | some ad2 => DynamicUniverse._assess_asset_date dt ad2
          | Option.none => false)
        = (rest.map Prod.fst).filter (fun b =>
          match rest.lookup b with
          | some ad2 => DynamicUniverse._assess_asset_date dt ad2
          | Option.none => false) := by
      apply List.filter_congr
      intro b hb
      rw [htail b hb]
    simp only [List.filterMap_cons, List.map_cons, List.filter_cons, hhead]
    rw [hfilter, ← ih hnd.2]
    cases hass : DynamicUniverse._assess_asset_date dt ad <;> simp [hass]

/-- C8: with unique keys (dict semantics), `get_assets` returns exactly the
members whose stored rule evaluates true at the query time, in the map's
iteration order — the filter of the key sequence by the per-member rule. -/
theorem get_assets_eq_spec_filter (u : DynamicUniverse) (dt : Int)
    (hnd : (u.asset_dates.map Prod.fst).Nodup) :
    u.get_assets dt = activeMembersSpec u dt :=
  get_assets_eq_keys_filter dt u.asset_dates hnd

/-- Witness for C8: the equality holds on the concrete scenario universe at
2021-06-01. -/
theorem get_assets_eq_spec_filter_witness :
    specScenarioUniverse.get_assets 20210601
      = activeMembersSpec specScenarioUniverse 20210601 :=
  get_assets_eq_spec_filter specScenarioUniverse 20210601 (by decide)

/-- C9: querying is pure — the state after a call is the original universe,
and a second call on that state returns the identical result and leaves the
state unchanged. -/
theorem get_assets_pure_idempotent (u : DynamicUniverse) (dt : Int) :
    (u.get_assets_call dt).2 = u ∧
    ((u.get_assets_call dt).2.get_assets_call dt).1 = (u.get_assets_call dt).1 ∧
    ((u.get_assets_call dt).2.get_assets_call dt).2 = u :=
  ⟨rfl, rfl, rfl⟩

/-- C10: membership is monotone in the query time — every per-member rule
is non-decreasing in t, so a member active at t1 is active at every
t2 ≥ t1. -/
theorem get_assets_monotone (u : DynamicUniverse) (t1 t2 : Int) (h : t1 ≤ t2) :
    ∀ X ∈ u.get_assets t1, X ∈ u.get_assets t2 := by
  intro X hX
  rcases mem_get_assets.mp hX with ⟨ad, hmem, hass⟩
  exact mem_get_assets.mpr ⟨ad, hmem, assess_asset_date_mono h ad hass⟩

/-- Witness for C10: "CCC" is active at 2020-07-01 in the scenario
universe, hence also at the later time 2021-06-01. -/
theorem get_assets_monotone_witness :
    "CCC" ∈ specScenarioUniverse.get_assets 20210601 :=
  get_assets_monotone specScenarioUniverse 20200701 20210601 (by decide)
    "CCC" (by decide)
